import Mathlib

/-!
# Verification of the Othello player core (`src/player.cpp`)

This file shallowly embeds the move-search engine, the evaluator with its
transposition cache, and the opening precomputation of `player.cpp`, and
settles the frozen claims C1..C10 about them.

Modelling conventions:

* `Side` embeds the C++ `Side` enumeration (`BLACK`/`WHITE`).
* The `Board` collaborator (`board.cpp`/`board.h`) is not part of `src/`;
  the spec declares it an external collaborator.  Search-level definitions
  are therefore parametrised by an abstract game interface (`SearchGame`)
  providing `getPossibleMoves`, `doMove` and the evaluation function, which
  is exactly the interface `player.cpp` consumes.  The claims quantify over
  "every board", which the parametrisation captures.
* The transposition table `_table` (a `map<string,int>` ordered by the
  C++ `string` comparison, i.e. lexicographic) is embedded as an
  association list kept sorted by key: `mapInsert` inserts at the ordered
  position, `mapLookup` models `find`, and the head of the list models
  `begin()`.
* C++ `int` arithmetic here consists only of comparisons, `max`/`min`,
  and small sums that cannot overflow, so scores are embedded as `Int`;
  the sentinels `INT_MIN`/`INT_MAX` are the explicit two's-complement
  32-bit bounds.
-/

namespace Othello

/-- The two players, as in `common.h` (`BLACK`/`WHITE`). -/
inductive Side where
  | BLACK : Side
  | WHITE : Side
deriving DecidableEq, Repr

/-- The complement side: `(_side == BLACK) ? WHITE : BLACK`. -/
def flipSide : Side → Side
  | Side.BLACK => Side.WHITE
  | Side.WHITE => Side.BLACK

theorem flipSide_ne (s : Side) : flipSide s ≠ s := by
  cases s <;> simp [flipSide]

theorem flipSide_of_ne {s agent : Side} (h : s ≠ agent) : flipSide s = agent := by
  cases s <;> cases agent <;> simp_all [flipSide]

/-- `INT_MIN` of a 32-bit C++ `int`. -/
def INT_MIN : Int := -(2 ^ 31)

/-- `INT_MAX` of a 32-bit C++ `int`. -/
def INT_MAX : Int := 2 ^ 31 - 1

theorem INT_MIN_lt_INT_MAX : INT_MIN < INT_MAX := by decide

/-! ## The transposition table

`_table` is a `map<string,int>`: an ordered map from the position
fingerprint (a `std::string`) to the cached score, iterated in increasing
key order.  We embed it as an association list that `mapInsert` keeps
sorted by key, so that the list head corresponds to `_table.begin()`. -/

/-- One transposition-table entry: fingerprint string and cached score. -/
abbrev TEntry := String × Int

/-- A transposition table: entries in increasing key order. -/
abbrev Table := List TEntry

/-- `_table[hash] = score`: ordered-map insertion (overwriting an equal key),
keeping the list sorted by the C++ string comparison. -/
def mapInsert : Table → String → Int → Table
  | [], k, v => [(k, v)]
  | (k', v') :: t, k, v =>
    if k < k' then (k, v) :: (k', v') :: t
    else if k = k' then (k, v) :: t
    else (k', v') :: mapInsert t k v

/-- `_table.find(hash)`: lookup by key. -/
def mapLookup : Table → String → Option Int
  | [], _ => none
  | (k', v') :: t, k => if k = k' then some v' else mapLookup t k

/-- The keys of a table. -/
def tableKeys (t : Table) : List String := t.map Prod.fst

/-- Lines 262-268 of `player.cpp`:
`if (_table.size() >= 100000) _table.erase(_table.begin()); _table[hash] = score;`
(`begin()` of the ordered map is the least key, i.e. the list head). -/
def tableStep (t : Table) (k : String) (v : Int) : Table :=
  mapInsert (if 100000 ≤ t.length then t.drop 1 else t) k v

/-- A sequence of fingerprint/score insertions performed through
`tableStep`, in the given order (first element inserted first). -/
def insertSeq : List TEntry → Table → Table
  | [], t => t
  | (k, v) :: l, t => insertSeq l (tableStep t k v)

/-! ## Boards and the evaluator

`player.cpp` reads the board's `black` and `taken` 64-bit bitsets directly
in `evaluate`.  A `bitset<64>` is embedded as the natural number given by
`to_ullong`; bit operations carry an explicit `% 2 ^ 64` mask. -/

/-- The raw data `evaluate` reads from a `Board`: the `black` and `taken`
`bitset<64>` members, as their `to_ullong` values. -/
structure BoardData where
  black : Nat
  taken : Nat
deriving DecidableEq, Repr

/-- All 64 bits set. -/
def mask64 : Nat := 2 ^ 64 - 1

/-- `EDGES = bitset<64>(0xff818181818181ffULL)` (line 3). -/
def EDGES : Nat := 0xff818181818181ff

/-- `CORNERS = bitset<64>(0x8100000000000081ULL)` (line 4). -/
def CORNERS : Nat := 0x8100000000000081

/-- `bitset<64>::count()`: the number of set bits among the low 64. -/
def popCount (n : Nat) : Nat :=
  ((List.range 64).filter fun i => n.testBit i).length

/-- The black occupancy bits (`b->black`), normalised to 64 bits. -/
def blackU (b : BoardData) : Nat := b.black % 2 ^ 64

/-- The total occupancy bits (`b->taken`), normalised to 64 bits. -/
def takenU (b : BoardData) : Nat := b.taken % 2 ^ 64

/-- `~(b->black) & (b->taken)`: the white occupancy bits. -/
def whiteU (b : BoardData) : Nat := (mask64 ^^^ blackU b) &&& takenU b

/-- Modelled from the spec: `Board::count(side)` (`board.cpp` is not in
`src/`) — "`count(side) -> integer`", the number of pieces of the given
side on the board. -/
def countSide (b : BoardData) : Side → Nat
  | Side.BLACK => popCount (blackU b)
  | Side.WHITE => popCount (whiteU b)

/-- The position fingerprint (lines 217-228): the decimal rendering of the
agent-side occupancy and of the total occupancy, joined by `", "`. -/
def hashOf (side : Side) (b : BoardData) : String :=
  let ai : Nat := match side with
    | Side.BLACK => blackU b
    | Side.WHITE => whiteU b
  toString ai ++ ", " ++ toString (takenU b)

/-- The heuristic score computed on a cache miss (lines 233-260), before
the table update: material, edge and corner terms, negated for a WHITE
agent.  `EW`/`CW` are `EDGEWEIGHT`/`CORNERWEIGHT` from the missing
`player.h`; the mobility move list is computed and immediately deleted in
the source without affecting the score, so it is omitted. -/
def rawScore (side : Side) (EW CW : Int) (b : BoardData) : Int :=
  let score : Int :=
    ((popCount (blackU b) : Int) - (popCount (whiteU b) : Int))
    + EW * (popCount (blackU b &&& EDGES) : Int)
    + CW * (popCount (blackU b &&& CORNERS) : Int)
    - EW * (popCount (whiteU b &&& EDGES) : Int)
    - CW * (popCount (whiteU b &&& CORNERS) : Int)
  match side with
  | Side.BLACK => score
  | Side.WHITE => -score

/-- `Player::evaluate` (lines 210-272): in material-only testing mode,
return the piece-count differential with no table access; otherwise
consult the transposition table under the position fingerprint, and on a
miss compute the heuristic score and insert it through `tableStep`.
Returns the score together with the table state after the call. -/
def evaluateFn (tm : Bool) (side : Side) (EW CW : Int) (t : Table)
    (b : BoardData) : Int × Table :=
  if tm then
    ((countSide b side : Int) - (countSide b (flipSide side) : Int), t)
  else
    let h := hashOf side b
    match mapLookup t h with
    | some v => (v, t)
    | none =>
      let score := rawScore side EW CW b
      (score, tableStep t h score)

/-! ## The search engine

`findMinimaxMove` / `minimaxHelper` consume the Board collaborator only
through `getPossibleMoves`, `copy`+`doMove` and `evaluate`.  Board copies
are value snapshots (`copy()` yields an independent board), so
`copy(); doMove(m, s)` is embedded as the pure child board `doMove b m s`.
`evaluate` is embedded as a pure score function: its returned value
depends only on the board (a cache hit returns the previously computed
score of the same fingerprint, and the fingerprint determines the
heuristic inputs), so threading the table through the search does not
change any returned score. -/

/-- The interface of the external Board collaborator consumed by the
search, together with the evaluation function. -/
structure SearchGame (B M : Type) where
  getPossibleMoves : B → Side → List M
  doMove : B → M → Side → B
  eval : B → Int

variable {B M : Type}

/-- The maximizing loop of `minimaxHelper` (lines 168-183): `f` performs
the recursive call at one depth less.  The running `alpha` is updated to
`max(alpha, score)` and the loop breaks as soon as `beta <= alpha`. -/
def maxGo (G : SearchGame B M) (f : B → Int → Int → Int) (b : B) (s : Side)
    (beta : Int) : List M → Int → Int
  | [], alpha => alpha
  | m :: rest, alpha =>
    let nextBoard := G.doMove b m s
    let score := f nextBoard alpha beta
    let alpha' := max alpha score
    if beta ≤ alpha' then alpha' else maxGo G f b s beta rest alpha'

/-- The minimizing loop of `minimaxHelper` (lines 186-201), dual to
`maxGo`: the running `beta` is updated to `min(beta, score)` and the loop
breaks as soon as `beta <= alpha`. -/
def minGo (G : SearchGame B M) (f : B → Int → Int → Int) (b : B) (s : Side)
    (alpha : Int) : List M → Int → Int
  | [], beta => beta
  | m :: rest, beta =>
    let nextBoard := G.doMove b m s
    let score := f nextBoard alpha beta
    let beta' := min beta score
    if beta' ≤ alpha then beta' else minGo G f b s alpha rest beta'

/-- `Player::minimaxHelper` (lines 154-204).  Depth `0` and a position
with no legal moves both evaluate the board.  A maximizing node (side to
move is the agent) re-initialises its local alpha to `INT_MIN` and keeps
the caller's beta; a minimizing node re-initialises beta to `INT_MAX`
and keeps the caller's alpha.  The recursive calls pass the flipped side,
as the source passes `_opponentSide` from the agent's node and `_side`
from the opponent's node. -/
def minimaxHelper (G : SearchGame B M) (agent : Side) :
    Nat → B → Side → Int → Int → Int
  | 0, b, _, _, _ => G.eval b
  | d + 1, b, s, alpha, beta =>
    match G.getPossibleMoves b s with
    | [] => G.eval b
    | m :: ms =>
      if s = agent then
        maxGo G (fun b' a' b'' => minimaxHelper G agent d b' (flipSide s) a' b'')
          b s beta (m :: ms) INT_MIN
      else
        minGo G (fun b' a' b'' => minimaxHelper G agent d b' (flipSide s) a' b'')
          b s alpha (m :: ms) INT_MAX

/-- The root loop of `Player::findMinimaxMove` (lines 113-127): each root
move is searched by `minimaxHelper` at one depth less with the running
alpha and `beta = INT_MAX`; on `score >= alpha` both the alpha and the
best move are replaced. -/
def rootGo (G : SearchGame B M) (agent : Side) (hd : Nat) (b : B) :
    List M → Int → Option M → Int × Option M
  | [], alpha, best => (alpha, best)
  | m :: rest, alpha, best =>
    let score := minimaxHelper G agent hd (G.doMove b m agent) (flipSide agent)
      alpha INT_MAX
    if alpha ≤ score then rootGo G agent hd b rest score (some m)
    else rootGo G agent hd b rest alpha best

/-- `Player::findMinimaxMove(depth)` (lines 104-147): returns the final
root alpha (the best score found) together with the selected move
(`NULL`, i.e. `none`, when the agent has no legal move). -/
def findMinimaxMove (G : SearchGame B M) (agent : Side) (depth : Nat)
    (b : B) : Int × Option M :=
  rootGo G agent (depth - 1) b (G.getPossibleMoves b agent) INT_MIN none

/-- The scores computed by the root loop for each root move, in
enumeration order, with the same alpha threading as `rootGo`. -/
def rootScores (G : SearchGame B M) (agent : Side) (hd : Nat) (b : B) :
    List M → Int → List Int
  | [], _ => []
  | m :: rest, alpha =>
    let score := minimaxHelper G agent hd (G.doMove b m agent) (flipSide agent)
      alpha INT_MAX
    score :: rootScores G agent hd b rest (if alpha ≤ score then score else alpha)

/-- The maximum of a non-empty list (`[]` is never reached). -/
def listMax : List Int → Int
  | [] => 0
  | x :: xs => xs.foldl max x

/-- The minimum of a non-empty list (`[]` is never reached). -/
def listMin : List Int → Int
  | [] => 0
  | x :: xs => xs.foldl min x

/-- The specification-side definition (spec §4.3, §8): unpruned full
minimax of the given depth over the same game interface and evaluator,
maximizing at the agent's nodes and minimizing at the opponent's, with
depth 0 and move-less positions evaluated as leaves. -/
def minimaxFull (G : SearchGame B M) (agent : Side) : Nat → B → Side → Int
  | 0, b, _ => G.eval b
  | d + 1, b, s =>
    match G.getPossibleMoves b s with
    | [] => G.eval b
    | m :: ms =>
      let vals := (m :: ms).map fun mv =>
        minimaxFull G agent d (G.doMove b mv s) (flipSide s)
      if s = agent then listMax vals else listMin vals

/-! ## `Player::doMove` and the iterative-deepening loop

Wall-clock readings are embedded as an arbitrary stream `e : Nat → Nat`
of elapsed-millisecond values observed at the successive loop-condition
checks (a `Nat`, since `clock()` differences are non-negative), and the
unbounded `while` loop is run on explicit fuel.  `time_allowed` is the
integer division `msLeft / 500` (both operands are `int`; the quotient is
only then converted to `double`). -/

/-- Modelled from the spec: `_board->doMove(m, _side)` with a `NULL` move
(`Board::doMove` is in the out-of-scope `board.cpp`) — "absence of a
reported move … maps to no board mutation". -/
def applyOpt (G : SearchGame B M) (b : B) (s : Side) : Option M → B
  | none => b
  | some m => G.doMove b m s

/-- The iterative-deepening `while` loop of `doMove` (lines 69-72): while
the elapsed time at the `i`-th check is below the allowance, run one more
fixed-depth root search (depth 2 in testing mode, else `depth++`).
Returns the last completed result and the number of iterations run. -/
def doMoveLoop (G : SearchGame B M) (agent : Side) (tm : Bool) (b : B)
    (e : Nat → Nat) (allowance : Int) :
    Nat → Nat → Nat → Option M → Option M × Nat
  | 0, i, _, m => (m, i)
  | fuel + 1, i, depth, m =>
    if (e i : Int) < allowance then
      doMoveLoop G agent tm b e allowance fuel (i + 1) (depth + 1)
        (if tm then (findMinimaxMove G agent 2 b).2
         else (findMinimaxMove G agent depth b).2)
    else (m, i)

/-- `Player::doMove` (lines 47-83).  `D` is `MINIMAXDEPTH` from the
missing `player.h`.  The opponent's reported move (if any) is applied for
the opponent side; with a positive time budget the iterative-deepening
loop runs with allowance `msLeft / 500`, otherwise a single fixed-depth
search; the chosen move is applied to the held board and returned.
The result is (returned move, board after the call, loop iterations). -/
def doMoveModel (G : SearchGame B M) (agent : Side) (tm : Bool) (D : Nat)
    (e : Nat → Nat) (fuel : Nat) (oppMove : Option M) (b : B)
    (msLeft : Int) : Option M × B × Nat :=
  let b' := applyOpt G b (flipSide agent) oppMove
  let r : Option M × Nat :=
    if 0 < msLeft then
      doMoveLoop G agent tm b' e (msLeft / 500) fuel 0 D none
    else
      ((if tm then (findMinimaxMove G agent 2 b').2
        else (findMinimaxMove G agent D b').2), 0)
  (r.1, applyOpt G b' agent r.1, r.2)

/-! ## Allocation-instrumented search (for the resource-discipline claim)

The same search, additionally counting the heap objects a call allocates
(`getPossibleMoves` allocates one `Move` per legal move; `copy()`
allocates one `Board` per examined move) and the objects it releases
(`delete *it; delete nextBoard;` — executed only on iterations that do
not take the `break`, since in the source the `break` on
`beta <= alpha` precedes both deletes).  Results are
(score, allocations, frees). -/

/-- Instrumented `maxGo`: on `break`, the current move, the current board
copy and all remaining moves of the vector are not freed. -/
def maxGoInstr (G : SearchGame B M) (f : B → Int → Int → Int × Nat × Nat)
    (b : B) (s : Side) (beta : Int) : List M → Int → Int × Nat × Nat
  | [], alpha => (alpha, 0, 0)
  | _m :: rest, alpha =>
    let nextBoard := G.doMove b _m s
    let r := f nextBoard alpha beta
    let alpha' := max alpha r.1
    if beta ≤ alpha' then (alpha', 1 + r.2.1, r.2.2)
    else
      let r' := maxGoInstr G f b s beta rest alpha'
      (r'.1, 1 + r.2.1 + r'.2.1, 2 + r.2.2 + r'.2.2)

/-- Instrumented `minGo`, dual to `maxGoInstr`. -/
def minGoInstr (G : SearchGame B M) (f : B → Int → Int → Int × Nat × Nat)
    (b : B) (s : Side) (alpha : Int) : List M → Int → Int × Nat × Nat
  | [], beta => (beta, 0, 0)
  | _m :: rest, beta =>
    let nextBoard := G.doMove b _m s
    let r := f nextBoard alpha beta
    let beta' := min beta r.1
    if beta' ≤ alpha then (beta', 1 + r.2.1, r.2.2)
    else
      let r' := minGoInstr G f b s alpha rest beta'
      (r'.1, 1 + r.2.1 + r'.2.1, 2 + r.2.2 + r'.2.2)

/-- Instrumented `minimaxHelper`: the move vector returned by
`getPossibleMoves` counts one allocation per move. -/
def minimaxHelperInstr (G : SearchGame B M) (agent : Side) :
    Nat → B → Side → Int → Int → Int × Nat × Nat
  | 0, b, _, _, _ => (G.eval b, 0, 0)
  | d + 1, b, s, alpha, beta =>
    match G.getPossibleMoves b s with
    | [] => (G.eval b, 0, 0)
    | m :: ms =>
      if s = agent then
        let r := maxGoInstr G
          (fun b' a' b'' => minimaxHelperInstr G agent d b' (flipSide s) a' b'')
          b s beta (m :: ms) INT_MIN
        (r.1, (m :: ms).length + r.2.1, r.2.2)
      else
        let r := minGoInstr G
          (fun b' a' b'' => minimaxHelperInstr G agent d b' (flipSide s) a' b'')
          b s alpha (m :: ms) INT_MAX
        (r.1, (m :: ms).length + r.2.1, r.2.2)

/-! ## Opening precomputation (`Player::computeOpening`, lines 278-311)

The breadth-first work list of (side-to-move, board) pairs and the
transposition table evolve one loop iteration at a time.  The fingerprint
and heuristic value of an abstract board are supplied by the interface
(`player.cpp` computes them in `evaluate` from the board's bitsets).
Dequeuing `positions.front()` from an empty vector is undefined
behaviour in C++; it is embedded as the absorbing `crashed` state. -/

/-- The Board interface consumed by `computeOpening` together with the
evaluator's fingerprint and heuristic functions. -/
structure OpenGame (B M : Type) where
  getPossibleMoves : B → Side → List M
  doMove : B → M → Side → B
  hash : B → String
  score : B → Int

/-- The table effect of `this->evaluate(curr.second)` during
precomputation (non-testing mode): a hit leaves the table unchanged, a
miss inserts through `tableStep`. -/
def evalOpen (g : OpenGame B M) (t : Table) (b : B) : Table :=
  match mapLookup t (g.hash b) with
  | some _ => t
  | none => tableStep t (g.hash b) (g.score b)

/-- The state of the `computeOpening` loop. -/
inductive OpenState (B : Type) where
  | ongoing (positions : List (Side × B)) (table : Table) : OpenState B
  | done (table : Table) : OpenState B
  | crashed (table : Table) : OpenState B
deriving DecidableEq, Repr

/-- One check-and-iteration of the `while (_table.size() < 25000)` loop:
stop when the table has reached 25000 entries; otherwise dequeue the
front pair (undefined behaviour — `crashed` — if the work list is empty),
evaluate its board, and enqueue all children under the flipped side. -/
def openStep (g : OpenGame B M) : OpenState B → OpenState B
  | OpenState.done t => OpenState.done t
  | OpenState.crashed t => OpenState.crashed t
  | OpenState.ongoing ps t =>
    if 25000 ≤ t.length then OpenState.done t
    else
      match ps with
      | [] => OpenState.crashed t
      | (s, b) :: rest =>
        let t' := evalOpen g t b
        let children := (g.getPossibleMoves b s).map fun m =>
          (flipSide s, g.doMove b m s)
        OpenState.ongoing (rest ++ children) t'

/-- `computeOpening` run for `n` loop checks from the initial state: the
work list holds the agent's side and (a copy of) the start board, and the
table is empty, as at construction time. -/
def openRun (g : OpenGame B M) (agent : Side) (b0 : B) : Nat → OpenState B
  | 0 => OpenState.ongoing [(agent, b0)] []
  | n + 1 => openStep g (openRun g agent b0 n)

/-! ## Basic table lemmas -/

theorem mapLookup_mapInsert_self (t : Table) (k : String) (v : Int) :
    mapLookup (mapInsert t k v) k = some v := by
  induction t with
  | nil => simp [mapInsert, mapLookup]
  | cons p t ih =>
    obtain ⟨k', v'⟩ := p
    by_cases h1 : k < k'
    · simp [mapInsert, mapLookup, h1]
    · by_cases h2 : k = k'
      · simp [mapInsert, mapLookup, h1, h2]
      · simp [mapInsert, mapLookup, h1, h2, ih]

theorem mapInsert_length_le (t : Table) (k : String) (v : Int) :
    (mapInsert t k v).length ≤ t.length + 1 := by
  induction t with
  | nil => simp [mapInsert]
  | cons p t ih =>
    obtain ⟨k', v'⟩ := p
    by_cases h1 : k < k'
    · simp [mapInsert, h1]
    · by_cases h2 : k = k'
      · simp [mapInsert, h1, h2]
      · simpa [mapInsert, h1, h2] using ih

theorem mapLookup_mapInsert_of_ne (t : Table) {k k' : String} (v : Int)
    (h : k' ≠ k) : mapLookup (mapInsert t k v) k' = mapLookup t k' := by
  induction t with
  | nil => simp [mapInsert, mapLookup, h]
  | cons p t ih =>
    obtain ⟨k0, v0⟩ := p
    by_cases h1 : k < k0
    · simp [mapInsert, mapLookup, h1, h]
    · by_cases h2 : k = k0
      · subst h2; simp [mapInsert, mapLookup, h1, h]
      · by_cases h3 : k' = k0 <;> simp [mapInsert, mapLookup, h1, h2, h3, ih]

/-- A key is in the table after `mapInsert` iff it is the inserted key or
was already present. -/
theorem mem_tableKeys_mapInsert (t : Table) (k k' : String) (v : Int) :
    k' ∈ tableKeys (mapInsert t k v) ↔ k' = k ∨ k' ∈ tableKeys t := by
  induction t with
  | nil => simp [mapInsert, tableKeys]
  | cons p t ih =>
    obtain ⟨k0, v0⟩ := p
    by_cases h1 : k < k0
    · simp [mapInsert, tableKeys, h1]
    · by_cases h2 : k = k0
      · subst h2
        have he : mapInsert ((k, v0) :: t) k v = (k, v) :: t := by
          simp [mapInsert]
        rw [he]
        simp only [tableKeys, List.map_cons, List.mem_cons]
        tauto
      · simp only [mapInsert, if_neg h1, if_neg h2]
        simp only [tableKeys, List.map_cons, List.mem_cons] at ih ⊢
        tauto

/-! ## C8: material-only testing mode -/

/-- C8: with material-only testing mode enabled, `evaluate` returns
exactly (agent piece count − opponent piece count) and neither reads nor
writes the transposition cache (the table is returned unchanged, and the
score does not depend on it). -/
theorem evaluate_material_mode (side : Side) (EW CW : Int) (t : Table)
    (b : BoardData) :
    evaluateFn true side EW CW t b
      = ((countSide b side : Int) - (countSide b (flipSide side) : Int), t) :=
  rfl

/-! ## C9: evaluator idempotence -/

/-- C9: evaluating the same board twice yields the identical score; after
the first call the fingerprint is cached with that score, and the second
call is a pure cache hit returning the cached value with the table
unchanged. -/
theorem evaluate_idempotent (side : Side) (EW CW : Int) (t : Table)
    (b : BoardData) :
    evaluateFn false side EW CW (evaluateFn false side EW CW t b).2 b
        = evaluateFn false side EW CW t b
      ∧ mapLookup (evaluateFn false side EW CW t b).2 (hashOf side b)
        = some (evaluateFn false side EW CW t b).1 := by
  simp only [evaluateFn, Bool.false_eq_true, if_false]
  cases h : mapLookup t (hashOf side b) with
  | some v => simp [h]
  | none => simp [h, tableStep, mapLookup_mapInsert_self]

/-! ## C7: the play-time cache bound is invariant -/

/-- The table after one (caching-mode) `evaluate` call. -/
def evalTableStep (side : Side) (EW CW : Int) (t : Table) (b : BoardData) :
    Table :=
  (evaluateFn false side EW CW t b).2

theorem evalTableStep_length (side : Side) (EW CW : Int) (t : Table)
    (b : BoardData) (h : t.length ≤ 100000) :
    (evalTableStep side EW CW t b).length ≤ 100000 := by
  unfold evalTableStep evaluateFn
  simp only [Bool.false_eq_true, if_false]
  cases hl : mapLookup t (hashOf side b) with
  | some v => simpa using h
  | none =>
    simp only [tableStep]
    by_cases hc : 100000 ≤ t.length
    · rw [if_pos hc]
      have h1 : (t.drop 1).length = t.length - 1 := by simp
      have h2 := mapInsert_length_le (t.drop 1) (hashOf side b)
        (rawScore side EW CW b)
      omega
    · rw [if_neg hc]
      have h2 := mapInsert_length_le t (hashOf side b) (rawScore side EW CW b)
      omega

/-- C7: over every sequence of `evaluate` calls starting from the empty
table, the transposition cache never exceeds 100000 entries; moreover the
bound is an invariant preserved by every single call. -/
theorem cache_never_exceeds_bound (side : Side) (EW CW : Int) :
    (∀ bs : List BoardData,
        (bs.foldl (evalTableStep side EW CW) []).length ≤ 100000)
      ∧ (∀ (t : Table) (b : BoardData), t.length ≤ 100000 →
        (evalTableStep side EW CW t b).length ≤ 100000) := by
  constructor
  · intro bs
    have main : ∀ (bs : List BoardData) (t : Table), t.length ≤ 100000 →
        (bs.foldl (evalTableStep side EW CW) t).length ≤ 100000 := by
      intro bs
      induction bs with
      | nil => intro t ht; simpa using ht
      | cons b bs ih =>
        intro t ht
        exact ih _ (evalTableStep_length side EW CW t b ht)
    exact main bs [] (by simp)
  · exact fun t b ht => evalTableStep_length side EW CW t b ht

/-- Witness for C7 at a concrete input: the initial Othello position and
a one-call history. -/
theorem cache_never_exceeds_bound_witness :
    (([⟨0x0000000810000000, 0x0000001818000000⟩] :
        List BoardData).foldl (evalTableStep Side.BLACK 5 20) []).length ≤ 100000
      ∧ (evalTableStep Side.BLACK 5 20 []
          ⟨0x0000000810000000, 0x0000001818000000⟩).length ≤ 100000 :=
  ⟨(cache_never_exceeds_bound Side.BLACK 5 20).1
      [⟨0x0000000810000000, 0x0000001818000000⟩],
    (cache_never_exceeds_bound Side.BLACK 5 20).2 []
      ⟨0x0000000810000000, 0x0000001818000000⟩ (by simp)⟩

/-! ## C3: `computeOpening` on a too-small game tree

The loop `while (_table.size() < 25000)` checks only the table size, so
on a game tree with fewer than 25000 reachable distinct fingerprints the
work list drains and `positions.front()` dequeues from an empty vector:
undefined behaviour, not a normal halt.  A one-position game with no
legal moves exhibits it after two loop checks. -/

/-- Whether an opening-precomputation state is a normal halt. -/
def isOpenDone {B : Type} : OpenState B → Bool
  | OpenState.done _ => true
  | _ => false

/-- A minimal Board-collaborator instance: a single position with no
legal moves for either side. -/
def tinyGame : OpenGame Unit Unit where
  getPossibleMoves _ _ := []
  doMove _ _ _ := ()
  hash _ := "x"
  score _ := 0

/-- C3 (refuting the small-tree half of the claim): on `tinyGame` the
precomputation loop reaches the empty-work-list dequeue (undefined
behaviour) at the second loop check, with only one cached entry, and no
number of further steps ever reaches a normal halt. -/
theorem computeOpening_small_tree_crash :
    openRun tinyGame Side.BLACK () 2 = OpenState.crashed [("x", 0)]
      ∧ ∀ n : Nat, isOpenDone (openRun tinyGame Side.BLACK () n) = false := by
  have habs : ∀ k, openRun tinyGame Side.BLACK () (k + 2)
      = OpenState.crashed [("x", 0)] := by
    intro k
    induction k with
    | zero => rfl
    | succ k ih =>
      show openStep tinyGame (openRun tinyGame Side.BLACK () (k + 2)) = _
      rw [ih]
      rfl
  refine ⟨habs 0, ?_⟩
  intro n
  rcases n with _ | _ | k
  · rfl
  · rfl
  · rw [habs k]
    rfl

/-! ## C4: board copies and moves leak across pruning breaks

In both loops of `minimaxHelper` the `break` on `beta <= alpha` precedes
`delete *it; delete nextBoard;`, so a pruned iteration frees neither its
move nor its board copy, and the moves remaining in the vector are never
freed either.  A depth-2 search on the following game takes one such
break and ends with 9 allocations but only 6 frees. -/

/-- A game in which the second root move's minimizing node prunes: from
board 1 the forced reply reaches value 5, so at board 2 the first reply
of value 3 makes `beta <= alpha` hold. -/
def leakGame : SearchGame Nat Nat where
  getPossibleMoves b s :=
    match b, s with
    | 0, Side.BLACK => [1, 2]
    | 1, Side.WHITE => [3]
    | 2, Side.WHITE => [4, 5]
    | _, _ => []
  doMove _ m _ := m
  eval b := if b = 3 then 5 else if b = 4 then 3 else 0

/-- C4 (refutation at a concrete input): the instrumented depth-2 search
from board 0 performs 9 allocations (2+1+2 move-vector entries and 4
board copies) but only 6 frees — the pruning break at board 2 leaks the
board copy of board 4, the move to board 4, and the never-examined move
to board 5. -/
theorem search_leaks_on_pruning_break :
    minimaxHelperInstr leakGame Side.BLACK 2 0 Side.BLACK INT_MIN INT_MAX
        = (5, 9, 6)
      ∧ (minimaxHelperInstr leakGame Side.BLACK 2 0 Side.BLACK INT_MIN
          INT_MAX).2.2
        < (minimaxHelperInstr leakGame Side.BLACK 2 0 Side.BLACK INT_MIN
          INT_MAX).2.1 := by
  constructor
  · rfl
  · decide

/-! ## Fold lemmas for running maxima/minima -/

theorem le_foldl_max : ∀ (l : List Int) (a : Int), a ≤ l.foldl max a
  | [], a => le_refl a
  | x :: l, a => le_trans (le_max_left a x) (le_foldl_max l (max a x))

theorem foldl_min_le : ∀ (l : List Int) (a : Int), l.foldl min a ≤ a
  | [], a => le_refl a
  | x :: l, a => le_trans (foldl_min_le l (min a x)) (min_le_left a x)

theorem foldl_max_choice : ∀ (l : List Int) (a : Int),
    l.foldl max a = a ∨ l.foldl max a ∈ l
  | [], _ => Or.inl rfl
  | x :: l, a => by
    rw [List.foldl_cons]
    rcases foldl_max_choice l (max a x) with h | h
    · rcases max_choice a x with h' | h'
      · exact Or.inl (by rw [h, h'])
      · exact Or.inr (by rw [h, h']; exact List.mem_cons_self x l)
    · exact Or.inr (List.mem_cons_of_mem x h)

theorem foldl_min_choice : ∀ (l : List Int) (a : Int),
    l.foldl min a = a ∨ l.foldl min a ∈ l
  | [], _ => Or.inl rfl
  | x :: l, a => by
    rw [List.foldl_cons]
    rcases foldl_min_choice l (min a x) with h | h
    · rcases min_choice a x with h' | h'
      · exact Or.inl (by rw [h, h'])
      · exact Or.inr (by rw [h, h']; exact List.mem_cons_self x l)
    · exact Or.inr (List.mem_cons_of_mem x h)

theorem listMax_bounds {lo hi x : Int} {xs : List Int}
    (hx : lo ≤ x ∧ x ≤ hi) (hxs : ∀ y ∈ xs, lo ≤ y ∧ y ≤ hi) :
    lo ≤ listMax (x :: xs) ∧ listMax (x :: xs) ≤ hi := by
  have hchoice := foldl_max_choice xs x
  constructor
  · exact le_trans hx.1 (le_foldl_max xs x)
  · show xs.foldl max x ≤ hi
    rcases hchoice with h | h
    · rw [h]; exact hx.2
    · exact (hxs _ h).2

theorem listMin_bounds {lo hi x : Int} {xs : List Int}
    (hx : lo ≤ x ∧ x ≤ hi) (hxs : ∀ y ∈ xs, lo ≤ y ∧ y ≤ hi) :
    lo ≤ listMin (x :: xs) ∧ listMin (x :: xs) ≤ hi := by
  have hchoice := foldl_min_choice xs x
  constructor
  · show lo ≤ xs.foldl min x
    rcases hchoice with h | h
    · rw [h]; exact hx.1
    · exact (hxs _ h).1
  · exact le_trans (foldl_min_le xs x) hx.2

/-- Bounds on the full minimax value, from bounds on the evaluator. -/
theorem minimaxFull_bounds (G : SearchGame B M) (agent : Side)
    (hb : ∀ b, INT_MIN ≤ G.eval b ∧ G.eval b ≤ INT_MAX) :
    ∀ (d : Nat) (b : B) (s : Side),
      INT_MIN ≤ minimaxFull G agent d b s
        ∧ minimaxFull G agent d b s ≤ INT_MAX := by
  intro d
  induction d with
  | zero => intro b s; simpa [minimaxFull] using hb b
  | succ d ih =>
    intro b s
    cases hmv : G.getPossibleMoves b s with
    | nil => simpa [minimaxFull, hmv] using hb b
    | cons m ms =>
      have hhd : INT_MIN ≤ minimaxFull G agent d (G.doMove b m s) (flipSide s)
          ∧ minimaxFull G agent d (G.doMove b m s) (flipSide s) ≤ INT_MAX :=
        ih _ _
      have htl : ∀ y ∈ ms.map fun mv =>
          minimaxFull G agent d (G.doMove b mv s) (flipSide s),
          INT_MIN ≤ y ∧ y ≤ INT_MAX := by
        intro y hy
        obtain ⟨mv, _, rfl⟩ := List.mem_map.1 hy
        exact ih _ _
      simp only [minimaxFull, hmv, List.map_cons]
      by_cases hs : s = agent
      · rw [if_pos hs]; exact listMax_bounds hhd htl
      · rw [if_neg hs]; exact listMin_bounds hhd htl

/-! ## The behaviour of the pruning loops relative to pure values

`max_update_eq` is the key observation: if the recursive call's result
either equals the child's pure minimax value or fails low (is at most the
running alpha it was given), then updating the running alpha with the
call's result is the same as updating it with the pure value. -/

theorem max_update_eq {a score vc : Int} (h1 : vc ≤ score)
    (h3 : score ≠ vc → score ≤ a) : max a score = max a vc := by
  by_cases he : score = vc
  · rw [he]
  · have hs := h3 he
    rw [max_eq_left hs, max_eq_left (le_trans h1 hs)]

theorem min_update_eq {a score vc : Int} (h1 : score ≤ vc)
    (h3 : score ≠ vc → a ≤ score) : min a score = min a vc := by
  by_cases he : score = vc
  · rw [he]
  · have hs := h3 he
    rw [min_eq_left hs, min_eq_left (le_trans hs h1)]

/-- Fail-soft specification of the maximizing loop: given that each
recursive call returns the child's pure value whenever that value beats
the alpha the call received, and otherwise fails low, the loop's result
equals the running maximum of the pure child values unless that maximum
reaches `beta`, in which case the loop breaks with a value between `beta`
and that maximum. -/
theorem maxGo_spec (G : SearchGame B M) (f : B → Int → Int → Int)
    (v : B → Int) (b : B) (s : Side) (beta : Int)
    (hf : ∀ (b' : B) (a' : Int),
      v b' ≤ f b' a' beta
      ∧ (a' < v b' → f b' a' beta = v b')
      ∧ (f b' a' beta ≠ v b' → f b' a' beta ≤ a')) :
    ∀ (ms : List M) (a : Int),
      maxGo G f b s beta ms a
          ≤ (ms.map fun mv => v (G.doMove b mv s)).foldl max a
      ∧ ((ms.map fun mv => v (G.doMove b mv s)).foldl max a < beta →
          maxGo G f b s beta ms a
            = (ms.map fun mv => v (G.doMove b mv s)).foldl max a)
      ∧ (maxGo G f b s beta ms a
            ≠ (ms.map fun mv => v (G.doMove b mv s)).foldl max a →
          beta ≤ maxGo G f b s beta ms a) := by
  intro ms
  induction ms with
  | nil =>
    intro a
    exact ⟨le_refl _, fun _ => rfl, fun h => absurd rfl h⟩
  | cons m rest ih =>
    intro a
    obtain ⟨h1, h2, h3⟩ := hf (G.doMove b m s) a
    have hkey : max a (f (G.doMove b m s) a beta)
        = max a (v (G.doMove b m s)) := max_update_eq h1 h3
    have hunf : maxGo G f b s beta (m :: rest) a
        = if beta ≤ max a (v (G.doMove b m s))
          then max a (v (G.doMove b m s))
          else maxGo G f b s beta rest (max a (v (G.doMove b m s))) := by
      simp only [maxGo]
      rw [hkey]
    have hW : ((m :: rest).map fun mv => v (G.doMove b mv s)).foldl max a
        = (rest.map fun mv => v (G.doMove b mv s)).foldl max
            (max a (v (G.doMove b m s))) := by
      simp
    rw [hunf, hW]
    by_cases hbr : beta ≤ max a (v (G.doMove b m s))
    · rw [if_pos hbr]
      have hle : max a (v (G.doMove b m s))
          ≤ (rest.map fun mv => v (G.doMove b mv s)).foldl max
            (max a (v (G.doMove b m s))) := le_foldl_max _ _
      exact ⟨hle, fun hlt => absurd (lt_of_le_of_lt (le_trans hbr hle) hlt)
        (lt_irrefl beta), fun _ => hbr⟩
    · rw [if_neg hbr]
      exact ih (max a (v (G.doMove b m s)))

/-- Fail-soft specification of the minimizing loop, dual to
`maxGo_spec`. -/
theorem minGo_spec (G : SearchGame B M) (f : B → Int → Int → Int)
    (v : B → Int) (b : B) (s : Side) (alpha : Int)
    (hf : ∀ (b' : B) (b'' : Int),
      f b' alpha b'' ≤ v b'
      ∧ (v b' < b'' → f b' alpha b'' = v b')
      ∧ (f b' alpha b'' ≠ v b' → b'' ≤ f b' alpha b'')) :
    ∀ (ms : List M) (a : Int),
      (ms.map fun mv => v (G.doMove b mv s)).foldl min a
          ≤ minGo G f b s alpha ms a
      ∧ (alpha < (ms.map fun mv => v (G.doMove b mv s)).foldl min a →
          minGo G f b s alpha ms a
            = (ms.map fun mv => v (G.doMove b mv s)).foldl min a)
      ∧ (minGo G f b s alpha ms a
            ≠ (ms.map fun mv => v (G.doMove b mv s)).foldl min a →
          minGo G f b s alpha ms a ≤ alpha) := by
  intro ms
  induction ms with
  | nil =>
    intro a
    exact ⟨le_refl _, fun _ => rfl, fun h => absurd rfl h⟩
  | cons m rest ih =>
    intro a
    obtain ⟨h1, h2, h3⟩ := hf (G.doMove b m s) a
    have hkey : min a (f (G.doMove b m s) alpha a)
        = min a (v (G.doMove b m s)) := min_update_eq h1 h3
    have hunf : minGo G f b s alpha (m :: rest) a
        = if min a (v (G.doMove b m s)) ≤ alpha
          then min a (v (G.doMove b m s))
          else minGo G f b s alpha rest (min a (v (G.doMove b m s))) := by
      simp only [minGo]
      rw [hkey]
    have hW : ((m :: rest).map fun mv => v (G.doMove b mv s)).foldl min a
        = (rest.map fun mv => v (G.doMove b mv s)).foldl min
            (min a (v (G.doMove b m s))) := by
      simp
    rw [hunf, hW]
    by_cases hbr : min a (v (G.doMove b m s)) ≤ alpha
    · rw [if_pos hbr]
      have hle : (rest.map fun mv => v (G.doMove b mv s)).foldl min
            (min a (v (G.doMove b m s))) ≤ min a (v (G.doMove b m s)) :=
        foldl_min_le _ _
      exact ⟨hle, fun hlt => absurd (lt_of_lt_of_le hlt (le_trans hle hbr))
        (lt_irrefl alpha), fun _ => hbr⟩
    · rw [if_neg hbr]
      exact ih (min a (v (G.doMove b m s)))

/-- The fail-soft behaviour of `minimaxHelper` relative to the full
minimax value, by induction on the depth.  At a maximizing node the
incoming alpha is discarded (the source resets it to `INT_MIN`), so the
result depends only on `beta`: it equals the full value whenever that
value is below `beta`, and otherwise fails high.  Dually at a minimizing
node. -/
theorem helper_spec (G : SearchGame B M) (agent : Side)
    (hb : ∀ b, INT_MIN ≤ G.eval b ∧ G.eval b ≤ INT_MAX) :
    ∀ (d : Nat) (b : B) (s : Side) (alpha beta : Int),
      (s = agent →
        minimaxHelper G agent d b s alpha beta ≤ minimaxFull G agent d b s
        ∧ (minimaxFull G agent d b s < beta →
            minimaxHelper G agent d b s alpha beta = minimaxFull G agent d b s)
        ∧ (minimaxHelper G agent d b s alpha beta ≠ minimaxFull G agent d b s →
            beta ≤ minimaxHelper G agent d b s alpha beta))
      ∧ (s ≠ agent →
        minimaxFull G agent d b s ≤ minimaxHelper G agent d b s alpha beta
        ∧ (alpha < minimaxFull G agent d b s →
            minimaxHelper G agent d b s alpha beta = minimaxFull G agent d b s)
        ∧ (minimaxHelper G agent d b s alpha beta ≠ minimaxFull G agent d b s →
            minimaxHelper G agent d b s alpha beta ≤ alpha)) := by
  intro d
  induction d with
  | zero =>
    intro b s alpha beta
    constructor <;> intro _ <;>
      exact ⟨le_refl _, fun _ => rfl, fun h => absurd rfl h⟩
  | succ d ih =>
    intro b s alpha beta
    cases hmv : G.getPossibleMoves b s with
    | nil =>
      have hh : minimaxHelper G agent (d + 1) b s alpha beta = G.eval b := by
        simp [minimaxHelper, hmv]
      have hfl : minimaxFull G agent (d + 1) b s = G.eval b := by
        simp [minimaxFull, hmv]
      rw [hh, hfl]
      constructor <;> intro _ <;>
        exact ⟨le_refl _, fun _ => rfl, fun h => absurd rfl h⟩
    | cons m ms =>
      by_cases hs : s = agent
      · have hflipne : flipSide s ≠ agent := by
          rw [hs]; exact flipSide_ne agent
        have hspec := maxGo_spec G
          (fun b' a' b'' => minimaxHelper G agent d b' (flipSide s) a' b'')
          (fun b' => minimaxFull G agent d b' (flipSide s)) b s beta
          (fun b' a' => (ih b' (flipSide s) a' beta).2 hflipne)
          (m :: ms) INT_MIN
        have hh : minimaxHelper G agent (d + 1) b s alpha beta
            = maxGo G
              (fun b' a' b'' => minimaxHelper G agent d b' (flipSide s) a' b'')
              b s beta (m :: ms) INT_MIN := by
          simp only [minimaxHelper, hmv, if_pos hs]
        have hfl : minimaxFull G agent (d + 1) b s
            = listMax ((m :: ms).map fun mv =>
              minimaxFull G agent d (G.doMove b mv s) (flipSide s)) := by
          simp only [minimaxFull, hmv, if_pos hs]
        have hW : ((m :: ms).map fun mv =>
              minimaxFull G agent d (G.doMove b mv s) (flipSide s)).foldl max
              INT_MIN
            = listMax ((m :: ms).map fun mv =>
              minimaxFull G agent d (G.doMove b mv s) (flipSide s)) := by
          simp only [List.map_cons, List.foldl_cons, listMax]
          rw [max_eq_right
            (minimaxFull_bounds G agent hb d (G.doMove b m s) (flipSide s)).1]
        constructor
        · intro _
          rw [hh, hfl, ← hW]
          exact hspec
        · intro hns
          exact absurd hs hns
      · have hflip : flipSide s = agent := flipSide_of_ne hs
        have hspec := minGo_spec G
          (fun b' a' b'' => minimaxHelper G agent d b' (flipSide s) a' b'')
          (fun b' => minimaxFull G agent d b' (flipSide s)) b s alpha
          (fun b' b'' => (ih b' (flipSide s) alpha b'').1 hflip)
          (m :: ms) INT_MAX
        have hh : minimaxHelper G agent (d + 1) b s alpha beta
            = minGo G
              (fun b' a' b'' => minimaxHelper G agent d b' (flipSide s) a' b'')
              b s alpha (m :: ms) INT_MAX := by
          simp only [minimaxHelper, hmv, if_neg hs]
        have hfl : minimaxFull G agent (d + 1) b s
            = listMin ((m :: ms).map fun mv =>
              minimaxFull G agent d (G.doMove b mv s) (flipSide s)) := by
          simp only [minimaxFull, hmv, if_neg hs]
        have hW : ((m :: ms).map fun mv =>
              minimaxFull G agent d (G.doMove b mv s) (flipSide s)).foldl min
              INT_MAX
            = listMin ((m :: ms).map fun mv =>
              minimaxFull G agent d (G.doMove b mv s) (flipSide s)) := by
          simp only [List.map_cons, List.foldl_cons, listMin]
          rw [min_eq_right
            (minimaxFull_bounds G agent hb d (G.doMove b m s) (flipSide s)).2]
        constructor
        · intro hsa
          exact absurd hsa hs
        · intro _
          rw [hh, hfl, ← hW]
          exact hspec

/-- The final alpha of the root loop equals the running maximum of the
pure full-minimax values of the root children, for any starting alpha and
best move. -/
theorem rootGo_alpha (G : SearchGame B M) (agent : Side)
    (hb : ∀ b, INT_MIN ≤ G.eval b ∧ G.eval b ≤ INT_MAX) (hd : Nat) (b : B) :
    ∀ (ms : List M) (a : Int) (best : Option M),
      (rootGo G agent hd b ms a best).1
        = (ms.map fun mv => minimaxFull G agent hd (G.doMove b mv agent)
            (flipSide agent)).foldl max a := by
  intro ms
  induction ms with
  | nil => intro a best; simp [rootGo]
  | cons m rest ih =>
    intro a best
    obtain ⟨h1, h2, h3⟩ :=
      (helper_spec G agent hb hd (G.doMove b m agent) (flipSide agent) a
        INT_MAX).2 (flipSide_ne agent)
    have hkey : max a (minimaxHelper G agent hd (G.doMove b m agent)
          (flipSide agent) a INT_MAX)
        = max a (minimaxFull G agent hd (G.doMove b m agent)
          (flipSide agent)) := max_update_eq h1 h3
    have hW : ((m :: rest).map fun mv => minimaxFull G agent hd
          (G.doMove b mv agent) (flipSide agent)).foldl max a
        = (rest.map fun mv => minimaxFull G agent hd (G.doMove b mv agent)
            (flipSide agent)).foldl max
          (max a (minimaxFull G agent hd (G.doMove b m agent)
            (flipSide agent))) := by simp
    rw [hW]
    by_cases ha : a ≤ minimaxHelper G agent hd (G.doMove b m agent)
        (flipSide agent) a INT_MAX
    · have hstep : rootGo G agent hd b (m :: rest) a best
          = rootGo G agent hd b rest (minimaxHelper G agent hd
            (G.doMove b m agent) (flipSide agent) a INT_MAX) (some m) := by
        simp only [rootGo, if_pos ha]
      rw [hstep, ih]
      have heq : minimaxHelper G agent hd (G.doMove b m agent)
            (flipSide agent) a INT_MAX
          = max a (minimaxFull G agent hd (G.doMove b m agent)
            (flipSide agent)) := by
        rw [← hkey, max_eq_right ha]
      rw [heq]
    · have hstep : rootGo G agent hd b (m :: rest) a best
          = rootGo G agent hd b rest a best := by
        simp only [rootGo, if_neg ha]
      rw [hstep, ih]
      have heq : a = max a (minimaxFull G agent hd (G.doMove b m agent)
          (flipSide agent)) := by
        rw [← hkey, max_eq_left (le_of_lt (lt_of_not_le ha))]
      rw [← heq]

/-! ## C1: the pruned root score equals unpruned full minimax -/

/-- C1: for every game interface, agent side, positive depth and board
with a legal move (and an evaluator within the `int` range), the
alpha-beta search driven by `findMinimaxMove` produces the same best
score at the root as an unpruned full minimax search of the same depth
with the same evaluator. -/
theorem alphabeta_root_score_eq_full_minimax (G : SearchGame B M)
    (agent : Side) (hb : ∀ b, INT_MIN ≤ G.eval b ∧ G.eval b ≤ INT_MAX)
    (depth : Nat) (hdep : 1 ≤ depth) (b : B)
    (hmv : G.getPossibleMoves b agent ≠ []) :
    (findMinimaxMove G agent depth b).1
      = minimaxFull G agent depth b agent := by
  obtain ⟨hd, rfl⟩ : ∃ hd, depth = hd + 1 := ⟨depth - 1, by omega⟩
  cases hms : G.getPossibleMoves b agent with
  | nil => exact absurd hms hmv
  | cons m ms =>
    have hroot : (findMinimaxMove G agent (hd + 1) b).1
        = ((m :: ms).map fun mv => minimaxFull G agent hd
            (G.doMove b mv agent) (flipSide agent)).foldl max INT_MIN := by
      show (rootGo G agent (hd + 1 - 1) b (G.getPossibleMoves b agent)
        INT_MIN none).1 = _
      rw [hms]
      exact rootGo_alpha G agent hb hd b (m :: ms) INT_MIN none
    have hfl : minimaxFull G agent (hd + 1) b agent
        = listMax ((m :: ms).map fun mv =>
          minimaxFull G agent hd (G.doMove b mv agent) (flipSide agent)) := by
      simp [minimaxFull, hms]
    have hW : ((m :: ms).map fun mv => minimaxFull G agent hd
          (G.doMove b mv agent) (flipSide agent)).foldl max INT_MIN
        = listMax ((m :: ms).map fun mv =>
          minimaxFull G agent hd (G.doMove b mv agent) (flipSide agent)) := by
      simp only [List.map_cons, List.foldl_cons, listMax]
      rw [max_eq_right
        (minimaxFull_bounds G agent hb hd (G.doMove b m agent)
          (flipSide agent)).1]
    rw [hroot, hfl, hW]

/-- A small concrete game instance for witnesses: boards are numbered
nodes of a three-level tree, a move is the child board it reaches, and
the evaluator is `b % 7` (so its bounds are easy to discharge). -/
def witGame : SearchGame Nat Nat where
  getPossibleMoves b s :=
    match b, s with
    | 0, Side.BLACK => [1, 2]
    | 1, Side.WHITE => [3]
    | 2, Side.WHITE => [4, 5]
    | _, _ => []
  doMove _ m _ := m
  eval b := ((b % 7 : Nat) : Int)

theorem witGame_eval_bounds :
    ∀ b : Nat, INT_MIN ≤ witGame.eval b ∧ witGame.eval b ≤ INT_MAX := by
  intro b
  have h0 : (0 : Int) ≤ ((b % 7 : Nat) : Int) := Int.natCast_nonneg _
  have h7 : ((b % 7 : Nat) : Int) < 7 := by
    exact_mod_cast Nat.mod_lt b (by decide)
  constructor
  · exact le_trans (by decide : INT_MIN ≤ (0 : Int)) h0
  · exact le_trans (le_of_lt h7) (by decide : (7 : Int) ≤ INT_MAX)

/-- Witness for C1: on `witGame`, depth 2 from board 0, the pruned root
score coincides with full minimax. -/
theorem alphabeta_root_score_eq_full_minimax_witness :
    (1 ≤ 2 ∧ witGame.getPossibleMoves 0 Side.BLACK ≠ [])
      ∧ (findMinimaxMove witGame Side.BLACK 2 0).1
        = minimaxFull witGame Side.BLACK 2 0 Side.BLACK :=
  ⟨⟨by decide, by decide⟩,
    alphabeta_root_score_eq_full_minimax witGame Side.BLACK
      witGame_eval_bounds 2 (by decide) 0 (by decide)⟩

/-! ## C6: `doMove` returns NULL exactly when there is no legal move -/

/-- Once the root loop has a candidate best move it never reverts to
`NULL`. -/
theorem rootGo_some (G : SearchGame B M) (agent : Side) (hd : Nat) (b : B) :
    ∀ (ms : List M) (a : Int) (m0 : M),
      ((rootGo G agent hd b ms a (some m0)).2).isSome = true := by
  intro ms
  induction ms with
  | nil => intro a m0; simp [rootGo]
  | cons m rest ih =>
    intro a m0
    by_cases ha : a ≤ minimaxHelper G agent hd (G.doMove b m agent)
        (flipSide agent) a INT_MAX
    · simp only [rootGo, if_pos ha]
      exact ih _ _
    · simp only [rootGo, if_neg ha]
      exact ih _ _

/-- `findMinimaxMove` returns `NULL` iff the agent has no legal move:
with at least one legal move, the first root iteration already sets the
best move, since its score is at least `INT_MIN`. -/
theorem findMinimaxMove_none_iff (G : SearchGame B M) (agent : Side)
    (hb : ∀ b, INT_MIN ≤ G.eval b ∧ G.eval b ≤ INT_MAX) (depth : Nat)
    (b : B) :
    (findMinimaxMove G agent depth b).2 = none
      ↔ G.getPossibleMoves b agent = [] := by
  constructor
  · intro hnone
    by_contra hne
    cases hms : G.getPossibleMoves b agent with
    | nil => exact hne hms
    | cons m ms =>
      have hscore : INT_MIN ≤ minimaxHelper G agent (depth - 1)
          (G.doMove b m agent) (flipSide agent) INT_MIN INT_MAX :=
        le_trans
          (minimaxFull_bounds G agent hb (depth - 1) (G.doMove b m agent)
            (flipSide agent)).1
          ((helper_spec G agent hb (depth - 1) (G.doMove b m agent)
            (flipSide agent) INT_MIN INT_MAX).2 (flipSide_ne agent)).1
    -- the first iteration takes the `score >= alpha` branch
      have hstep : (findMinimaxMove G agent depth b).2
          = (rootGo G agent (depth - 1) b ms (minimaxHelper G agent (depth - 1)
              (G.doMove b m agent) (flipSide agent) INT_MIN INT_MAX)
              (some m)).2 := by
        show (rootGo G agent (depth - 1) b (G.getPossibleMoves b agent)
          INT_MIN none).2 = _
        rw [hms]
        simp only [rootGo, if_pos hscore]
      have hsome := rootGo_some G agent (depth - 1) b ms
        (minimaxHelper G agent (depth - 1) (G.doMove b m agent)
          (flipSide agent) INT_MIN INT_MAX) m
      rw [hstep] at hnone
      rw [hnone] at hsome
      simp at hsome
  · intro hnil
    show (rootGo G agent (depth - 1) b (G.getPossibleMoves b agent)
      INT_MIN none).2 = none
    rw [hnil]
    rfl

/-- C6: with a non-positive time budget, `doMove` returns `NULL` if and
only if the agent's side has no legal move on the board obtained after
applying the opponent's reported move; in particular it never returns
`NULL` when a legal move exists.  (`D` is `MINIMAXDEPTH`; the embedding
requires it positive, as every search depth used by the source is.) -/
theorem doMove_none_iff_no_moves (G : SearchGame B M) (agent : Side)
    (hb : ∀ b, INT_MIN ≤ G.eval b ∧ G.eval b ≤ INT_MAX) (tm : Bool)
    (D : Nat) (_hD : 1 ≤ D) (e : Nat → Nat) (fuel : Nat)
    (oppMove : Option M) (b : B) (msLeft : Int) (hms : msLeft ≤ 0) :
    (doMoveModel G agent tm D e fuel oppMove b msLeft).1 = none
      ↔ G.getPossibleMoves (applyOpt G b (flipSide agent) oppMove) agent
        = [] := by
  have hnot : ¬ 0 < msLeft := not_lt.mpr hms
  show (if 0 < msLeft then
      doMoveLoop G agent tm (applyOpt G b (flipSide agent) oppMove) e
        (msLeft / 500) fuel 0 D none
    else
      ((if tm then (findMinimaxMove G agent 2
          (applyOpt G b (flipSide agent) oppMove)).2
        else (findMinimaxMove G agent D
          (applyOpt G b (flipSide agent) oppMove)).2), 0)).1 = none ↔ _
  rw [if_neg hnot]
  cases tm
  · simpa using findMinimaxMove_none_iff G agent hb D
      (applyOpt G b (flipSide agent) oppMove)
  · simpa using findMinimaxMove_none_iff G agent hb 2
      (applyOpt G b (flipSide agent) oppMove)

/-- Witness for C6 on the concrete `witGame`. -/
theorem doMove_none_iff_no_moves_witness :
    ((doMoveModel witGame Side.BLACK false 2 (fun _ => 0) 0 none 0 0).1 = none
      ↔ witGame.getPossibleMoves
          (applyOpt witGame 0 (flipSide Side.BLACK) none) Side.BLACK = []) :=
  doMove_none_iff_no_moves witGame Side.BLACK witGame_eval_bounds false 2
    (by decide) (fun _ => 0) 0 none 0 0 (by decide)

/-! ## C10: a positive budget below 500 ms yields no move at all -/

/-- C10: for `0 < msLeft < 500` the integer division `msLeft / 500`
computes a zero time allowance, so the iterative-deepening loop executes
zero iterations and `doMove` returns `NULL` regardless of the position
(in particular even when legal moves exist). -/
theorem small_budget_returns_null (msLeft : Int) (h1 : 0 < msLeft)
    (h2 : msLeft < 500) :
    msLeft / 500 = 0
      ∧ ∀ (G : SearchGame B M) (agent : Side) (tm : Bool) (D : Nat)
          (e : Nat → Nat) (fuel : Nat) (oppMove : Option M) (b : B),
          (doMoveModel G agent tm D e fuel oppMove b msLeft).1 = none
          ∧ (doMoveModel G agent tm D e fuel oppMove b msLeft).2.2 = 0 := by
  have hdiv : msLeft / 500 = 0 := by omega
  refine ⟨hdiv, ?_⟩
  intro G agent tm D e fuel oppMove b
  have hloop : ∀ (fuel i depth : Nat),
      doMoveLoop G agent tm (applyOpt G b (flipSide agent) oppMove) e 0
        fuel i depth none = (none, i) := by
    intro fuel i depth
    cases fuel with
    | zero => rfl
    | succ f =>
      have hge : ¬ ((e i : Int) < 0) := not_lt.mpr (Int.natCast_nonneg _)
      simp only [doMoveLoop, if_neg hge]
  have hres : doMoveLoop G agent tm (applyOpt G b (flipSide agent) oppMove) e
      (msLeft / 500) fuel 0 D none = (none, 0) := by
    rw [hdiv]
    exact hloop fuel 0 D
  constructor
  · show (if 0 < msLeft then
        doMoveLoop G agent tm (applyOpt G b (flipSide agent) oppMove) e
          (msLeft / 500) fuel 0 D none
      else
        ((if tm then (findMinimaxMove G agent 2
            (applyOpt G b (flipSide agent) oppMove)).2
          else (findMinimaxMove G agent D
            (applyOpt G b (flipSide agent) oppMove)).2), 0)).1 = none
    rw [if_pos h1, hres]
  · show (if 0 < msLeft then
        doMoveLoop G agent tm (applyOpt G b (flipSide agent) oppMove) e
          (msLeft / 500) fuel 0 D none
      else
        ((if tm then (findMinimaxMove G agent 2
            (applyOpt G b (flipSide agent) oppMove)).2
          else (findMinimaxMove G agent D
            (applyOpt G b (flipSide agent) oppMove)).2), 0)).2 = 0
    rw [if_pos h1, hres]

/-- Witness for C10 at `msLeft = 250` on `witGame` (whose board 0 has
two legal moves, so a move did exist). -/
theorem small_budget_returns_null_witness :
    ((250 : Int) / 500 = 0)
      ∧ (doMoveModel witGame Side.BLACK false 5 (fun _ => 0) 3 none 0
          250).1 = none
      ∧ (doMoveModel witGame Side.BLACK false 5 (fun _ => 0) 3 none 0
          250).2.2 = 0
      ∧ (witGame.getPossibleMoves 0 Side.BLACK).isEmpty = false :=
  ⟨(small_budget_returns_null (B := Nat) (M := Nat) 250 (by decide)
      (by decide)).1,
    ((small_budget_returns_null 250 (by decide) (by decide)).2 witGame
      Side.BLACK false 5 (fun _ => 0) 3 none 0).1,
    ((small_budget_returns_null 250 (by decide) (by decide)).2 witGame
      Side.BLACK false 5 (fun _ => 0) 3 none 0).2,
    by decide⟩

/-! ## C5: root ties favour the later-enumerated move -/

theorem rootScores_length (G : SearchGame B M) (agent : Side) (hd : Nat)
    (b : B) : ∀ (ms : List M) (a : Int),
      (rootScores G agent hd b ms a).length = ms.length := by
  intro ms
  induction ms with
  | nil => intro a; rfl
  | cons m rest ih =>
    intro a
    simp only [rootScores, List.length_cons, ih]

theorem rootScores_lb (G : SearchGame B M) (agent : Side)
    (hb : ∀ b, INT_MIN ≤ G.eval b ∧ G.eval b ≤ INT_MAX) (hd : Nat) (b : B) :
    ∀ (ms : List M) (a : Int) (x : Int),
      x ∈ rootScores G agent hd b ms a → INT_MIN ≤ x := by
  intro ms
  induction ms with
  | nil => intro a x hx; simp [rootScores] at hx
  | cons m rest ih =>
    intro a x hx
    simp only [rootScores, List.mem_cons] at hx
    rcases hx with rfl | hx
    · exact le_trans
        (minimaxFull_bounds G agent hb hd (G.doMove b m agent)
          (flipSide agent)).1
        ((helper_spec G agent hb hd (G.doMove b m agent) (flipSide agent) a
          INT_MAX).2 (flipSide_ne agent)).1
    · exact ih _ _ hx

/-- If every remaining root score is strictly below the running alpha,
the root loop changes nothing. -/
theorem rootGo_stay (G : SearchGame B M) (agent : Side) (hd : Nat) (b : B) :
    ∀ (ms : List M) (a : Int) (best : Option M),
      (∀ x ∈ rootScores G agent hd b ms a, x < a) →
      rootGo G agent hd b ms a best = (a, best) := by
  intro ms
  induction ms with
  | nil => intro a best _; rfl
  | cons m rest ih =>
    intro a best h
    have h0 : minimaxHelper G agent hd (G.doMove b m agent) (flipSide agent)
        a INT_MAX < a := h _ (by simp [rootScores])
    have hna : ¬ a ≤ minimaxHelper G agent hd (G.doMove b m agent)
        (flipSide agent) a INT_MAX := not_le.mpr h0
    simp only [rootGo, if_neg hna]
    apply ih
    intro x hx
    apply h
    simp only [rootScores, List.mem_cons]
    right
    rwa [if_neg hna]

theorem forall_getD_imp {l : List Int} {P : Int → Prop}
    (h : ∀ k, k < l.length → P (l.getD k 0)) : ∀ x ∈ l, P x := by
  intro x hx
  obtain ⟨n, hn, hget⟩ := List.getElem_of_mem hx
  have hP := h n hn
  rw [List.getD_eq_getElem _ _ hn, hget] at hP
  exact hP

/-- The root loop returns the move at index `j` whenever the score at `j`
is at least the running alpha and at least every other score, and every
later score is strictly below it. -/
theorem rootGo_best_argmax (G : SearchGame B M) (agent : Side) (hd : Nat)
    (b : B) :
    ∀ (ms : List M) (a : Int) (best : Option M) (j : Nat)
      (hj : j < ms.length),
      a ≤ (rootScores G agent hd b ms a).getD j 0 →
      (∀ k, k < ms.length →
        (rootScores G agent hd b ms a).getD k 0
          ≤ (rootScores G agent hd b ms a).getD j 0) →
      (∀ k, k < ms.length → j < k →
        (rootScores G agent hd b ms a).getD k 0
          < (rootScores G agent hd b ms a).getD j 0) →
      (rootGo G agent hd b ms a best).2 = some (ms.get ⟨j, hj⟩) := by
  intro ms
  induction ms with
  | nil =>
    intro a best j hj
    exact absurd hj (by simp)
  | cons m rest ih =>
    intro a best j hj ha hmax hafter
    cases j with
    | zero =>
      have ha0 : a ≤ minimaxHelper G agent hd (G.doMove b m agent)
          (flipSide agent) a INT_MAX := by
        simpa [rootScores] using ha
      have hs0 : (rootScores G agent hd b (m :: rest) a).getD 0 0
          = minimaxHelper G agent hd (G.doMove b m agent) (flipSide agent) a
            INT_MAX := by
        simp [rootScores]
      have htail : ∀ k, k < (rootScores G agent hd b rest
          (minimaxHelper G agent hd (G.doMove b m agent) (flipSide agent) a
            INT_MAX)).length →
          (rootScores G agent hd b rest
            (minimaxHelper G agent hd (G.doMove b m agent) (flipSide agent) a
              INT_MAX)).getD k 0
          < minimaxHelper G agent hd (G.doMove b m agent) (flipSide agent) a
            INT_MAX := by
        intro k hk
        have hk' : k < rest.length := by
          simpa [rootScores_length] using hk
        have hk2 : k + 1 < (m :: rest).length := by
          simpa using Nat.succ_lt_succ hk'
        have h3 := hafter (k + 1) hk2 (Nat.succ_pos _)
        rw [hs0] at h3
        have htl : (rootScores G agent hd b (m :: rest) a).getD (k + 1) 0
            = (rootScores G agent hd b rest
              (minimaxHelper G agent hd (G.doMove b m agent) (flipSide agent)
                a INT_MAX)).getD k 0 := by
          simp only [rootScores, List.getD_cons_succ, if_pos ha0]
        rwa [htl] at h3
      have hstop := rootGo_stay G agent hd b rest
        (minimaxHelper G agent hd (G.doMove b m agent) (flipSide agent) a
          INT_MAX) (some m) (forall_getD_imp htail)
      simp only [rootGo, if_pos ha0, hstop]
      rfl
    | succ j' =>
      have hj' : j' < rest.length := Nat.lt_of_succ_lt_succ hj
      have hs0 : (rootScores G agent hd b (m :: rest) a).getD 0 0
          = minimaxHelper G agent hd (G.doMove b m agent) (flipSide agent) a
            INT_MAX := by
        simp [rootScores]
      by_cases ha0 : a ≤ minimaxHelper G agent hd (G.doMove b m agent)
          (flipSide agent) a INT_MAX
      · have htl : ∀ k : Nat,
            (rootScores G agent hd b (m :: rest) a).getD (k + 1) 0
            = (rootScores G agent hd b rest
              (minimaxHelper G agent hd (G.doMove b m agent) (flipSide agent)
                a INT_MAX)).getD k 0 := by
          intro k
          simp only [rootScores, List.getD_cons_succ, if_pos ha0]
        have hstep : (rootGo G agent hd b (m :: rest) a best).2
            = (rootGo G agent hd b rest
              (minimaxHelper G agent hd (G.doMove b m agent) (flipSide agent)
                a INT_MAX) (some m)).2 := by
          simp only [rootGo, if_pos ha0]
        rw [hstep]
        have hres := ih (minimaxHelper G agent hd (G.doMove b m agent)
            (flipSide agent) a INT_MAX) (some m) j' hj' ?_ ?_ ?_
        · rw [hres]
          rfl
        · have := hmax 0 (by simp)
          rw [hs0, htl j'] at this
          exact this
        · intro k hk
          have := hmax (k + 1) (by simpa using Nat.succ_lt_succ hk)
          rwa [htl k, htl j'] at this
        · intro k hk hjk
          have := hafter (k + 1) (by simpa using Nat.succ_lt_succ hk)
            (Nat.succ_lt_succ hjk)
          rwa [htl k, htl j'] at this
      · have htl : ∀ k : Nat,
            (rootScores G agent hd b (m :: rest) a).getD (k + 1) 0
            = (rootScores G agent hd b rest a).getD k 0 := by
          intro k
          simp only [rootScores, List.getD_cons_succ, if_neg ha0]
        have hstep : (rootGo G agent hd b (m :: rest) a best).2
            = (rootGo G agent hd b rest a best).2 := by
          simp only [rootGo, if_neg ha0]
        rw [hstep]
        have hres := ih a best j' hj' ?_ ?_ ?_
        · rw [hres]
          rfl
        · have := ha
          rwa [htl j'] at this
        · intro k hk
          have := hmax (k + 1) (by simpa using Nat.succ_lt_succ hk)
          rwa [htl k, htl j'] at this
        · intro k hk hjk
          have := hafter (k + 1) (by simpa using Nat.succ_lt_succ hk)
            (Nat.succ_lt_succ hjk)
          rwa [htl k, htl j'] at this

/-- C5: at the root, a move is selected by `score >= alpha`, so whenever
two root moves `i < j` tie for the best helper score (and no later move
reaches it again), the later-enumerated move `j` is the one returned. -/
theorem root_tie_breaks_later (G : SearchGame B M) (agent : Side)
    (hb : ∀ b, INT_MIN ≤ G.eval b ∧ G.eval b ≤ INT_MAX) (depth : Nat)
    (b : B) (i j : Nat) (_hij : i < j)
    (hj : j < (G.getPossibleMoves b agent).length)
    (_htie : (rootScores G agent (depth - 1) b (G.getPossibleMoves b agent)
          INT_MIN).getD i 0
        = (rootScores G agent (depth - 1) b (G.getPossibleMoves b agent)
          INT_MIN).getD j 0)
    (hbest : ∀ k, k < (G.getPossibleMoves b agent).length →
        (rootScores G agent (depth - 1) b (G.getPossibleMoves b agent)
          INT_MIN).getD k 0
        ≤ (rootScores G agent (depth - 1) b (G.getPossibleMoves b agent)
          INT_MIN).getD j 0)
    (hafter : ∀ k, k < (G.getPossibleMoves b agent).length → j < k →
        (rootScores G agent (depth - 1) b (G.getPossibleMoves b agent)
          INT_MIN).getD k 0
        < (rootScores G agent (depth - 1) b (G.getPossibleMoves b agent)
          INT_MIN).getD j 0) :
    (findMinimaxMove G agent depth b).2
      = some ((G.getPossibleMoves b agent).get ⟨j, hj⟩) := by
  have hlen : j < (rootScores G agent (depth - 1) b
      (G.getPossibleMoves b agent) INT_MIN).length := by
    simpa [rootScores_length] using hj
  have hmem : (rootScores G agent (depth - 1) b (G.getPossibleMoves b agent)
      INT_MIN).getD j 0 ∈ rootScores G agent (depth - 1) b
      (G.getPossibleMoves b agent) INT_MIN := by
    rw [List.getD_eq_getElem _ _ hlen]
    exact List.getElem_mem hlen
  have ha : INT_MIN ≤ (rootScores G agent (depth - 1) b
      (G.getPossibleMoves b agent) INT_MIN).getD j 0 :=
    rootScores_lb G agent hb (depth - 1) b _ _ _ hmem
  exact rootGo_best_argmax G agent (depth - 1) b
    (G.getPossibleMoves b agent) INT_MIN none j hj ha hbest hafter

/-- A concrete game with a root tie: both root moves of board 0 evaluate
to 5 at depth 1. -/
def tieGame : SearchGame Nat Nat where
  getPossibleMoves b s :=
    match b, s with
    | 0, Side.BLACK => [1, 2]
    | _, _ => []
  doMove _ m _ := m
  eval _ := 5

theorem tieGame_eval_bounds :
    ∀ b : Nat, INT_MIN ≤ tieGame.eval b ∧ tieGame.eval b ≤ INT_MAX := by
  intro b
  show INT_MIN ≤ (5 : Int) ∧ (5 : Int) ≤ INT_MAX
  decide

/-- Witness for C5: on `tieGame` at depth 1, moves 0 and 1 tie with score
5 and the returned move is the later one (the move to board 2). -/
theorem root_tie_breaks_later_witness :
    (findMinimaxMove tieGame Side.BLACK 1 0).2 = some 2 := by
  have h := root_tie_breaks_later tieGame Side.BLACK tieGame_eval_bounds 1 0
    0 1 (by decide) (by decide) (by decide) (by decide) (by decide)
  simpa using h

/-! ## C2: the eviction policy is by key order, not insertion order

`_table.erase(_table.begin())` removes the map entry with the least key
in the C++ `string` order, which is unrelated to insertion order.  To
exhibit this we need a family of distinct keys with known order:
`encKey i` is the string of `i` copies of `'a'`, strictly increasing in
`i` under the lexicographic order. -/

/-- `i` copies of `'a'`. -/
def encKey (i : Nat) : String := String.mk (List.replicate i 'a')

theorem replicate_a_lt : ∀ (i j : Nat), i < j →
    List.Lex (· < ·) (List.replicate i 'a') (List.replicate j 'a')
  | 0, j + 1, _ => by
    rw [List.replicate_succ]
    exact List.Lex.nil
  | i + 1, j + 1, h => by
    rw [List.replicate_succ, List.replicate_succ]
    exact List.Lex.cons (replicate_a_lt i j (Nat.lt_of_succ_lt_succ h))

theorem encKey_lt {i j : Nat} (h : i < j) : encKey i < encKey j := by
  rw [String.lt_iff_toList_lt]
  exact replicate_a_lt i j h

theorem encKey_ne {i j : Nat} (h : i ≠ j) : encKey i ≠ encKey j := by
  rcases Nat.lt_or_ge i j with hij | hij
  · exact ne_of_lt (encKey_lt hij)
  · exact (ne_of_lt (encKey_lt (Nat.lt_of_le_of_ne hij (Ne.symm h)))).symm

/-- Inserting a key smaller than the head key of the table prepends. -/
theorem mapInsert_of_lt_head (k k' : String) (v v' : Int) (t : Table)
    (h : k < k') :
    mapInsert ((k', v') :: t) k v = (k, v) :: (k', v') :: t := by
  simp [mapInsert, h]

theorem mapInsert_length_of_not_mem (t : Table) (k : String) (v : Int)
    (h : k ∉ tableKeys t) : (mapInsert t k v).length = t.length + 1 := by
  induction t with
  | nil => rfl
  | cons p t ih =>
    obtain ⟨k', v'⟩ := p
    have hk : k ≠ k' := by
      intro he
      exact h (by simp [tableKeys, he])
    by_cases h1 : k < k'
    · simp [mapInsert, h1]
    · have ht : k ∉ tableKeys t := fun hm => h (by simp [tableKeys] at hm ⊢; tauto)
      simp only [mapInsert, if_neg h1, if_neg hk, List.length_cons]
      rw [ih ht]

/-! The insertion history for the counterexample: 100000 distinct keys
inserted in strictly decreasing key order (so the first-inserted key is
the largest), then one further fresh key.  Each insertion during the
build-up prepends, so the resulting table is the ascending list of the
same entries. -/

/-- `downEntries n = [(encKey n, 0), ..., (encKey 1, 0)]`: the entries in
insertion order (largest key first). -/
def downEntries : Nat → List TEntry
  | 0 => []
  | n + 1 => (encKey (n + 1), 0) :: downEntries n

/-- `upEntries k m = [(encKey k, 0), ..., (encKey (k+m-1), 0)]`. -/
def upEntries (k : Nat) : Nat → List TEntry
  | 0 => []
  | m + 1 => (encKey k, 0) :: upEntries (k + 1) m

theorem downEntries_length : ∀ n, (downEntries n).length = n
  | 0 => rfl
  | n + 1 => by simp [downEntries, downEntries_length n]

theorem upEntries_length : ∀ (m k : Nat), (upEntries k m).length = m
  | 0, _ => rfl
  | m + 1, k => by simp [upEntries, upEntries_length m (k + 1)]

theorem downEntries_chain :
    ∀ n, List.Chain' (fun p q : TEntry => q.1 < p.1) (downEntries n)
  | 0 => List.chain'_nil
  | 1 => List.chain'_singleton _
  | n + 2 => by
    rw [downEntries, downEntries]
    exact List.Chain'.cons (encKey_lt (Nat.lt_succ_self (n + 1)))
      (by rw [← downEntries]; exact downEntries_chain (n + 1))

theorem upEntries_chain :
    ∀ (m k : Nat), List.Chain' (fun p q : TEntry => p.1 < q.1) (upEntries k m)
  | 0, _ => List.chain'_nil
  | 1, _ => List.chain'_singleton _
  | m + 2, k => by
    rw [upEntries, upEntries]
    exact List.Chain'.cons (encKey_lt (Nat.lt_succ_self k))
      (by rw [← upEntries]; exact upEntries_chain (m + 1) (k + 1))

theorem upEntries_snoc : ∀ (m k : Nat),
    upEntries k (m + 1) = upEntries k m ++ [(encKey (k + m), 0)]
  | 0, k => by simp [upEntries]
  | m + 1, k => by
    have he : k + 1 + m = k + m + 1 := by omega
    rw [upEntries, upEntries_snoc m (k + 1), he]
    rfl

theorem downEntries_reverse : ∀ n, (downEntries n).reverse = upEntries 1 n
  | 0 => rfl
  | n + 1 => by
    have he : 1 + n = n + 1 := by omega
    rw [downEntries, List.reverse_cons, downEntries_reverse n,
      upEntries_snoc n 1, he]

theorem mem_upEntries : ∀ (m k i : Nat), k ≤ i → i < k + m →
    (encKey i, (0 : Int)) ∈ upEntries k m
  | 0, k, i, h1, h2 => absurd h2 (by omega)
  | m + 1, k, i, h1, h2 => by
    rcases Nat.eq_or_lt_of_le h1 with he | hlt
    · rw [upEntries, he]
      exact List.mem_cons_self _ _
    · rw [upEntries]
      exact List.mem_cons_of_mem _ (mem_upEntries m (k + 1) i hlt (by omega))

theorem not_mem_upEntries_keys : ∀ (m k i : Nat), i < k →
    encKey i ∉ tableKeys (upEntries k m)
  | 0, _, _, _ => by simp [upEntries, tableKeys]
  | m + 1, k, i, h => by
    rw [upEntries]
    simp only [tableKeys, List.map_cons, List.mem_cons]
    rintro (he | hm)
    · exact encKey_ne (Nat.ne_of_lt h) he
    · exact not_mem_upEntries_keys m (k + 1) i (by omega) hm

/-- Inserting entries with strictly decreasing keys (each below the
current least key) below capacity prepends each time, so the resulting
table is the reversed insertion sequence. -/
theorem insertSeq_desc : ∀ (l : List TEntry) (t : Table),
    List.Chain' (fun p q : TEntry => q.1 < p.1) l →
    (∀ p ∈ l.head?, ∀ q ∈ t.head?, p.1 < q.1) →
    l.length + t.length ≤ 100000 →
    insertSeq l t = l.reverse ++ t
  | [], t, _, _, _ => by simp [insertSeq]
  | (k, v) :: l', t, hchain, hhead, hlen => by
    have htlen : ¬ 100000 ≤ t.length := by
      simp only [List.length_cons] at hlen
      omega
    have hstep : tableStep t k v = (k, v) :: t := by
      rw [tableStep, if_neg htlen]
      cases t with
      | nil => rfl
      | cons q t' =>
        obtain ⟨k0, v0⟩ := q
        have hk : k < k0 := hhead (k, v) (by simp) (k0, v0) (by simp)
        exact mapInsert_of_lt_head k k0 v v0 t' hk
    have hch' : List.Chain' (fun p q : TEntry => q.1 < p.1) l' :=
      (List.chain'_cons'.1 hchain).2
    have hhd' : ∀ p ∈ l'.head?, ∀ q ∈ ((k, v) :: t).head?, p.1 < q.1 := by
      intro p hp q hq
      simp only [List.head?_cons, Option.mem_def, Option.some.injEq] at hq
      have hlt := (List.chain'_cons'.1 hchain).1 p hp
      rw [← hq]
      exact hlt
    have hlen' : l'.length + ((k, v) :: t).length ≤ 100000 := by
      simp only [List.length_cons] at hlen ⊢
      omega
    show insertSeq l' (tableStep t k v) = ((k, v) :: l').reverse ++ t
    rw [hstep, insertSeq_desc l' ((k, v) :: t) hch' hhd' hlen']
    simp

/-- C2 counterexample: the eviction performed by `evaluate` when the
table holds 100000 entries is not oldest-inserted-first.  The concrete
history `downEntries 100000` inserts 100000 distinct fingerprints in
strictly decreasing key order (so the earliest-inserted entry is
`encKey 100000`); inserting the further fresh fingerprint `encKey 0`
evicts `encKey 1` — the most recently inserted of the original entries
and the least key — while the earliest-inserted entry survives,
contradicting the claimed FIFO policy. -/
theorem evaluate_eviction_not_fifo :
    (downEntries 100000).length = 100000
    ∧ ((downEntries 100000).map Prod.fst).Nodup
    ∧ (downEntries 100000).head? = some (encKey 100000, 0)
    ∧ encKey 0 ∉ tableKeys (insertSeq (downEntries 100000) [])
    ∧ encKey 100000 ∈ tableKeys
        (tableStep (insertSeq (downEntries 100000) []) (encKey 0) 0)
    ∧ encKey 1 ∉ tableKeys
        (tableStep (insertSeq (downEntries 100000) []) (encKey 0) 0) := by
  have hn : (100000 : Nat) = 99999 + 1 := by norm_num
  have hn2 : (99999 : Nat) = 99998 + 1 := by norm_num
  have hsplit : downEntries 100000
      = (encKey 100000, 0) :: downEntries 99999 := by
    rw [hn, downEntries]
  have hT : insertSeq (downEntries 100000) [] = upEntries 1 100000 := by
    rw [insertSeq_desc (downEntries 100000) [] (downEntries_chain 100000)
      (by intro p hp q hq; simp at hq)
      (by rw [downEntries_length, List.length_nil])]
    rw [downEntries_reverse]
    simp
  have hup : upEntries 1 100000 = (encKey 1, 0) :: upEntries 2 99999 := by
    rw [hn, upEntries]
  have hup2 : upEntries 2 99999 = (encKey 2, 0) :: upEntries 3 99998 := by
    rw [hn2, upEntries]
  have hres : tableStep (insertSeq (downEntries 100000) []) (encKey 0) 0
      = (encKey 0, 0) :: (encKey 2, 0) :: upEntries 3 99998 := by
    rw [hT, hup, tableStep,
      if_pos (by rw [List.length_cons, upEntries_length] :
        100000 ≤ ((encKey 1, (0 : Int)) :: upEntries 2 99999).length)]
    have hdrop : ((encKey 1, (0 : Int)) :: upEntries 2 99999).drop 1
        = upEntries 2 99999 := rfl
    rw [hdrop, hup2,
      mapInsert_of_lt_head _ _ _ _ _ (encKey_lt (by omega : 0 < 2))]
  refine ⟨downEntries_length 100000, ?_, ?_, ?_, ?_, ?_⟩
  · haveI : IsTrans TEntry (fun p q : TEntry => q.1 < p.1) :=
      ⟨fun _ _ _ hab hbc => lt_trans hbc hab⟩
    have hp := List.chain'_iff_pairwise.1 (downEntries_chain 100000)
    exact List.pairwise_map.2 (hp.imp fun hab => ne_of_gt hab)
  · rw [hsplit]
    rfl
  · rw [hT]
    exact not_mem_upEntries_keys 100000 1 0 (by omega)
  · rw [hres]
    simp only [tableKeys, List.map_cons, List.mem_cons]
    right; right
    exact List.mem_map_of_mem Prod.fst
      (mem_upEntries 99998 3 100000 (by omega) (by omega))
  · rw [hres]
    simp only [tableKeys, List.map_cons, List.mem_cons]
    rintro (h0 | h2 | hm)
    · exact encKey_ne (by omega) h0
    · exact encKey_ne (by omega) h2
    · exact not_mem_upEntries_keys 99998 3 1 (by omega) hm

/-- C2 amended: when the cache holds 100000 entries and `evaluate`
inserts a fresh fingerprint, exactly one existing entry is evicted,
namely the one whose fingerprint is least in the C++ string order (the
`begin()` of the ordered map) — not the earliest-inserted one. -/
theorem evaluate_eviction_least_key (p : TEntry) (t : Table) (k : String)
    (v : Int)
    (hsort : List.Chain' (fun q r : TEntry => q.1 < r.1) (p :: t))
    (hlen : (p :: t).length = 100000)
    (hfresh : k ∉ tableKeys (p :: t)) :
    (∀ q ∈ p :: t, p.1 ≤ q.1)
    ∧ tableStep (p :: t) k v = mapInsert t k v
    ∧ k ∈ tableKeys (tableStep (p :: t) k v)
    ∧ p.1 ∉ tableKeys (tableStep (p :: t) k v)
    ∧ (tableStep (p :: t) k v).length = 100000 := by
  haveI : IsTrans TEntry (fun q r : TEntry => q.1 < r.1) :=
    ⟨fun _ _ _ hab hbc => lt_trans hab hbc⟩
  have hpw := List.chain'_iff_pairwise.1 hsort
  have hhead : ∀ q ∈ t, p.1 < q.1 := (List.pairwise_cons.1 hpw).1
  have hkt : k ∉ tableKeys t := by
    intro hk
    apply hfresh
    simp only [tableKeys, List.map_cons, List.mem_cons]
    right
    exact hk
  have hstep : tableStep (p :: t) k v = mapInsert t k v := by
    rw [tableStep, if_pos (by simp [hlen])]
    simp
  refine ⟨?_, hstep, ?_, ?_, ?_⟩
  · intro q hq
    rcases List.mem_cons.1 hq with rfl | hq
    · exact le_refl _
    · exact le_of_lt (hhead q hq)
  · rw [hstep]
    exact (mem_tableKeys_mapInsert t k k v).2 (Or.inl rfl)
  · rw [hstep]
    intro hmem
    rcases (mem_tableKeys_mapInsert t k p.1 v).1 hmem with he | hmem'
    · apply hfresh
      rw [← he]
      simp [tableKeys]
    · simp only [tableKeys] at hmem'
      obtain ⟨q, hq, hq1⟩ := List.mem_map.1 hmem'
      rw [← hq1] at hhead
      exact absurd (hhead q hq) (lt_irrefl q.1)
  · rw [hstep, mapInsert_length_of_not_mem t k v hkt]
    simp only [List.length_cons] at hlen
    omega

/-- Witness for the amended C2 at a concrete table of 100000 entries:
the ascending table `[(encKey 1, 0), …, (encKey 100000, 0)]` with the
fresh fingerprint `encKey 0`. -/
theorem evaluate_eviction_least_key_witness :
    (List.Chain' (fun q r : TEntry => q.1 < r.1)
        ((encKey 1, 0) :: upEntries 2 99999)
      ∧ ((encKey 1, (0 : Int)) :: upEntries 2 99999).length = 100000
      ∧ encKey 0 ∉ tableKeys ((encKey 1, 0) :: upEntries 2 99999))
    ∧ ((∀ q ∈ (encKey 1, (0 : Int)) :: upEntries 2 99999,
          (encKey 1, (0 : Int)).1 ≤ q.1)
      ∧ tableStep ((encKey 1, 0) :: upEntries 2 99999) (encKey 0) 0
          = mapInsert (upEntries 2 99999) (encKey 0) 0
      ∧ encKey 0 ∈ tableKeys
          (tableStep ((encKey 1, 0) :: upEntries 2 99999) (encKey 0) 0)
      ∧ (encKey 1, (0 : Int)).1 ∉ tableKeys
          (tableStep ((encKey 1, 0) :: upEntries 2 99999) (encKey 0) 0)
      ∧ (tableStep ((encKey 1, 0) :: upEntries 2 99999)
          (encKey 0) 0).length = 100000) := by
  have h1 : List.Chain' (fun q r : TEntry => q.1 < r.1)
      ((encKey 1, 0) :: upEntries 2 99999) := by
    have h := upEntries_chain 100000 1
    have hn : (100000 : Nat) = 99999 + 1 := by norm_num
    rw [hn, upEntries] at h
    exact h
  have h2 : ((encKey 1, (0 : Int)) :: upEntries 2 99999).length = 100000 := by
    rw [List.length_cons, upEntries_length]
  have h3 : encKey 0 ∉ tableKeys ((encKey 1, 0) :: upEntries 2 99999) := by
    simp only [tableKeys, List.map_cons, List.mem_cons]
    rintro (he | hm)
    · exact encKey_ne (by omega) he
    · exact not_mem_upEntries_keys 99999 2 0 (by omega) hm
  exact ⟨⟨h1, h2, h3⟩, evaluate_eviction_least_key (encKey 1, 0)
    (upEntries 2 99999) (encKey 0) 0 h1 h2 h3⟩

end Othello
